import Mathlib

/-!
Verification development for the GMM mod-manager backend
(src-tauri/src/main.rs).  Paths are modelled as lists of segments
(`FPath`), the filesystem as finite sets of directory and file paths,
and the SQLite catalog as a list of asset rows.  Each command of the
Rust source that the claims touch is embedded as a pure Lean function
over these states.
-/

namespace GMM

/-! ## Strings: the DISABLED_ marker, trimming, lowercasing -/

/-- The constant `DISABLED_PREFIX` of the source. -/
def disabledMark : String := "DISABLED_"

def disabledMarkChars : List Char := disabledMark.data

/-- Model of Rust `str::starts_with(DISABLED_PREFIX)`. -/
def hasDisabledMark (s : String) : Bool := disabledMarkChars.isPrefixOf s.data

/-- Model of `format!("{}{}", DISABLED_PREFIX, s)`. -/
def addDisabledMark (s : String) : String := disabledMark ++ s

/-- Fuel-driven worker for `trim_start_matches(DISABLED_PREFIX)`. -/
def stripDisabledAux : Nat → List Char → List Char
  | 0, l => l
  | n + 1, l =>
    if disabledMarkChars.isPrefixOf l then stripDisabledAux n (l.drop disabledMarkChars.length)
    else l

/-- Model of Rust `str::trim_start_matches(DISABLED_PREFIX)`: strips every
leading repetition of the marker. -/
def stripDisabledMarks (s : String) : String := ⟨stripDisabledAux s.data.length s.data⟩

/-- Model of Rust `str::trim` (whitespace from both ends). -/
def trimChars (l : List Char) : List Char :=
  ((l.dropWhile Char.isWhitespace).reverse.dropWhile Char.isWhitespace).reverse

def trimStr (s : String) : String := ⟨trimChars s.data⟩

/-- Model of Rust `str::to_lowercase` (per-character lowering). -/
def lowerStr (s : String) : String := ⟨s.data.map Char.toLower⟩

theorem isPrefixOf_iff {α : Type} [BEq α] [LawfulBEq α] (l₁ l₂ : List α) :
    l₁.isPrefixOf l₂ = true ↔ l₁ <+: l₂ := List.isPrefixOf_iff_prefix

theorem disabledMarkChars_ne_nil : disabledMarkChars ≠ [] := by decide

theorem disabledMarkChars_length : disabledMarkChars.length = 9 := by decide

theorem data_addDisabledMark (s : String) :
    (addDisabledMark s).data = disabledMarkChars ++ s.data := by
  simp [addDisabledMark, disabledMarkChars, disabledMark, String.data_append]

theorem hasDisabledMark_addDisabledMark (s : String) :
    hasDisabledMark (addDisabledMark s) = true := by
  simp only [hasDisabledMark, data_addDisabledMark]
  exact (isPrefixOf_iff _ _).mpr (List.prefix_append _ _)

theorem addDisabledMark_ne_self (s : String) : addDisabledMark s ≠ s := by
  intro h
  have hd : (addDisabledMark s).data = s.data := congrArg String.data h
  have : (addDisabledMark s).data.length = s.data.length := congrArg List.length hd
  rw [data_addDisabledMark, List.length_append, disabledMarkChars_length] at this
  omega

theorem stripDisabledAux_not_isPrefixOf (n : Nat) (l : List Char) (h : l.length ≤ n) :
    disabledMarkChars.isPrefixOf (stripDisabledAux n l) = false := by
  induction n generalizing l with
  | zero =>
    have hl : l = [] := List.eq_nil_of_length_eq_zero (Nat.le_zero.mp h)
    subst hl
    decide
  | succ n ih =>
    by_cases hp : disabledMarkChars.isPrefixOf l = true
    · have hlen : disabledMarkChars.length ≤ l.length :=
        ((isPrefixOf_iff _ _).mp hp).length_le
      rw [disabledMarkChars_length] at hlen
      have hrec : (l.drop disabledMarkChars.length).length ≤ n := by
        rw [List.length_drop, disabledMarkChars_length]
        omega
      simp only [stripDisabledAux, hp, if_true]
      exact ih _ hrec
    · simp only [stripDisabledAux, hp, if_false]
      exact Bool.eq_false_iff.mpr hp

theorem hasDisabledMark_stripDisabledMarks (s : String) :
    hasDisabledMark (stripDisabledMarks s) = false := by
  exact stripDisabledAux_not_isPrefixOf s.data.length s.data (Nat.le_refl _)

theorem stripDisabledAux_of_not (n : Nat) (l : List Char)
    (h : disabledMarkChars.isPrefixOf l = false) : stripDisabledAux n l = l := by
  cases n with
  | zero => rfl
  | succ n => simp [stripDisabledAux, h]

theorem stripDisabledMarks_of_not (s : String) (h : hasDisabledMark s = false) :
    stripDisabledMarks s = s := by
  unfold stripDisabledMarks
  rw [stripDisabledAux_of_not _ _ h]

/-! ## Paths and the filesystem model -/

/-- A filesystem path, as a list of name segments. -/
abbrev FPath := List String

/-- The final segment of a path: model of `Path::file_name` followed by
`to_string_lossy` with an empty default. -/
def leafName (p : FPath) : String := (p.getLast?).getD ""

/-- The filesystem: the set of directories and the set of regular files
that currently exist, each as its absolute path. -/
structure FS where
  dirs : List FPath
  files : List FPath
deriving DecidableEq

def FS.isDir (fs : FS) (p : FPath) : Bool := decide (p ∈ fs.dirs)

def FS.isFile (fs : FS) (p : FPath) : Bool := decide (p ∈ fs.files)

/-- Relocate one path under a rename of directory `old` to `new`:
paths beneath `old` are re-rooted at `new`, all others are untouched. -/
def relocateUnder (old new p : FPath) : FPath :=
  if old.isPrefixOf p then new ++ p.drop old.length else p

/-- Model of `fs::rename(old, new)` on a directory: the directory and its
whole subtree (directories and files) move. -/
def FS.renameDir (fs : FS) (old new : FPath) : FS :=
  ⟨fs.dirs.map (relocateUnder old new), fs.files.map (relocateUnder old new)⟩

theorem relocateUnder_self (old new : FPath) : relocateUnder old new old = new := by
  simp [relocateUnder, (isPrefixOf_iff _ _).mpr (List.prefix_refl old)]

theorem relocateUnder_of_not_under (old new p : FPath) (h : ¬ old <+: p) :
    relocateUnder old new p = p := by
  have hb : old.isPrefixOf p = false :=
    Bool.eq_false_iff.mpr (fun hb => h ((isPrefixOf_iff _ _).mp hb))
  simp [relocateUnder, hb]

theorem relocateUnder_append (old new t : FPath) :
    relocateUnder old new (old ++ t) = new ++ t := by
  simp [relocateUnder, (isPrefixOf_iff _ _).mpr (List.prefix_append _ _)]

/-! ## The two candidate physical locations of an asset -/

/-- Enabled location: `base / storedPath`. -/
def enabledLoc (base storedPath : FPath) : FPath := base ++ storedPath

/-- Disabled location: `base / parent(storedPath) / DISABLED_{leaf}`. -/
def disabledLoc (base storedPath : FPath) : FPath :=
  base ++ storedPath.dropLast ++ [addDisabledMark (leafName storedPath)]

theorem getLast?_decomp {α : Type} (l : List α) (x : α) (h : l.getLast? = some x) :
    l = l.dropLast ++ [x] := by
  cases l with
  | nil => cases h
  | cons a as =>
    have hne : a :: as ≠ [] := by simp
    have h2 : (a :: as).getLast? = some ((a :: as).getLast hne) :=
      List.getLast?_eq_getLast _ hne
    rw [h] at h2
    have hx : x = (a :: as).getLast hne := Option.some.inj h2
    rw [hx]
    exact (List.dropLast_append_getLast hne).symm

theorem renameDir_mem_new (fs : FS) (old new : FPath) (h : old ∈ fs.dirs) :
    new ∈ (fs.renameDir old new).dirs := by
  simp only [FS.renameDir]
  exact List.mem_map.mpr ⟨old, h, relocateUnder_self old new⟩

theorem renameDir_not_mem_old (fs : FS) (old new : FPath)
    (hlen : old.length = new.length) (hne : old ≠ new) :
    old ∉ (fs.renameDir old new).dirs := by
  intro hmem
  obtain ⟨q, _, hval⟩ := List.mem_map.mp hmem
  by_cases hp : old <+: q
  · obtain ⟨t, ht⟩ := hp
    subst ht
    rw [relocateUnder_append] at hval
    have hlen2 : new.length + t.length = old.length := by
      have := congrArg List.length hval
      simpa using this
    have ht0 : t = [] := List.eq_nil_of_length_eq_zero (by omega)
    subst ht0
    simp only [List.append_nil] at hval
    exact hne hval.symm
  · rw [relocateUnder_of_not_under _ _ _ hp] at hval
    subst hval
    exact hp (List.prefix_refl _)

theorem relocateUnder_roundtrip (old new q : FPath) (h : ¬ new <+: q) :
    relocateUnder new old (relocateUnder old new q) = q := by
  by_cases hp : old <+: q
  · obtain ⟨t, ht⟩ := hp
    subst ht
    rw [relocateUnder_append, relocateUnder_append]
  · rw [relocateUnder_of_not_under _ _ _ hp, relocateUnder_of_not_under _ _ _ h]

theorem renameDir_roundtrip (fs : FS) (old new : FPath)
    (hd : ∀ q ∈ fs.dirs, ¬ new <+: q) (hf : ∀ q ∈ fs.files, ¬ new <+: q) :
    (fs.renameDir old new).renameDir new old = fs := by
  cases fs with
  | mk ds fls =>
    simp only [FS.renameDir, List.map_map, FS.mk.injEq]
    constructor
    · calc (ds.map (relocateUnder new old ∘ relocateUnder old new)) = ds.map id :=
            List.map_congr_left (fun q hq => relocateUnder_roundtrip old new q (hd q hq))
        _ = ds := List.map_id ds
    · calc (fls.map (relocateUnder new old ∘ relocateUnder old new)) = fls.map id :=
            List.map_congr_left (fun q hq => relocateUnder_roundtrip old new q (hf q hq))
        _ = fls := List.map_id fls

/-! ## toggle_asset_enabled -/

/-- Model of the command `toggle_asset_enabled` (main.rs lines 864-943).
`storedPath` is the clean relative path read from the catalog row.  The
returned `FS` is the filesystem after the call (unchanged on error). -/
def toggle_asset_enabled (fs : FS) (base storedPath : FPath) :
    Except String Bool × FS :=
  match storedPath.getLast? with
  | none => (Except.error "Could not extract filename from DB path", fs)
  | some leaf =>
    if leaf = "" then (Except.error "Filename extracted from DB path is empty", fs)
    else if fs.isDir (enabledLoc base storedPath) then
      (Except.ok false,
        fs.renameDir (enabledLoc base storedPath) (disabledLoc base storedPath))
    else if fs.isDir (disabledLoc base storedPath) then
      (Except.ok true,
        fs.renameDir (disabledLoc base storedPath) (enabledLoc base storedPath))
    else (Except.error "Folder not found at expected locations", fs)

theorem FS.isDir_eq_true (fs : FS) (p : FPath) (h : p ∈ fs.dirs) :
    fs.isDir p = true := by
  simp [FS.isDir, h]

theorem FS.isDir_eq_false (fs : FS) (p : FPath) (h : p ∉ fs.dirs) :
    fs.isDir p = false := by
  simp [FS.isDir, h]

theorem disabledLoc_eq (base storedPath : FPath) (leaf : String)
    (hleaf : storedPath.getLast? = some leaf) :
    disabledLoc base storedPath =
      (base ++ storedPath.dropLast) ++ [addDisabledMark leaf] := by
  simp [disabledLoc, leafName, hleaf, List.append_assoc]

theorem enabledLoc_eq (base storedPath : FPath) (leaf : String)
    (hleaf : storedPath.getLast? = some leaf) :
    enabledLoc base storedPath = (base ++ storedPath.dropLast) ++ [leaf] := by
  rw [enabledLoc]
  conv_lhs => rw [getLast?_decomp storedPath leaf hleaf]
  rw [← List.append_assoc]

theorem enabledLoc_ne_disabledLoc (base storedPath : FPath) (leaf : String)
    (hleaf : storedPath.getLast? = some leaf) :
    enabledLoc base storedPath ≠ disabledLoc base storedPath := by
  rw [enabledLoc_eq _ _ _ hleaf, disabledLoc_eq _ _ _ hleaf]
  intro h
  have h2 : [leaf] = [addDisabledMark leaf] := List.append_cancel_left h
  injection h2 with h3 h4
  exact addDisabledMark_ne_self leaf h3.symm

theorem enabledLoc_length_eq (base storedPath : FPath) (leaf : String)
    (hleaf : storedPath.getLast? = some leaf) :
    (enabledLoc base storedPath).length = (disabledLoc base storedPath).length := by
  rw [enabledLoc_eq _ _ _ hleaf, disabledLoc_eq _ _ _ hleaf]
  simp

/-- Claim C1: for an asset whose catalog row stores clean relative path
`storedPath` under managed root `base`, `toggle_asset_enabled` tests the
enabled location first and then the disabled location; if exactly one of
the two directories exists it renames it to the other candidate and
returns the flipped boolean (`false` after disabling, `true` after
re-enabling, and two successive toggles return `false` then `true` and
restore the original filesystem); if neither exists it fails with an
error and performs no rename. -/
theorem toggle_asset_enabled_spec (fs : FS) (base storedPath : FPath) (leaf : String)
    (hleaf : storedPath.getLast? = some leaf) (hne : leaf ≠ "") :
    (enabledLoc base storedPath ∈ fs.dirs → disabledLoc base storedPath ∉ fs.dirs →
      toggle_asset_enabled fs base storedPath =
        (Except.ok false,
          fs.renameDir (enabledLoc base storedPath) (disabledLoc base storedPath))) ∧
    (disabledLoc base storedPath ∈ fs.dirs → enabledLoc base storedPath ∉ fs.dirs →
      toggle_asset_enabled fs base storedPath =
        (Except.ok true,
          fs.renameDir (disabledLoc base storedPath) (enabledLoc base storedPath))) ∧
    (enabledLoc base storedPath ∉ fs.dirs → disabledLoc base storedPath ∉ fs.dirs →
      ∃ msg, toggle_asset_enabled fs base storedPath = (Except.error msg, fs)) ∧
    (enabledLoc base storedPath ∈ fs.dirs →
      (∀ q ∈ fs.dirs, ¬ disabledLoc base storedPath <+: q) →
      (∀ q ∈ fs.files, ¬ disabledLoc base storedPath <+: q) →
      ∃ fs₁, toggle_asset_enabled fs base storedPath = (Except.ok false, fs₁) ∧
        toggle_asset_enabled fs₁ base storedPath = (Except.ok true, fs)) := by
  have hnedis := enabledLoc_ne_disabledLoc base storedPath leaf hleaf
  have hlen := enabledLoc_length_eq base storedPath leaf hleaf
  refine ⟨?_, ?_, ?_, ?_⟩
  · intro h1 _
    simp only [toggle_asset_enabled, hleaf]
    rw [if_neg hne, if_pos (FS.isDir_eq_true fs _ h1)]
  · intro h1 h2
    simp only [toggle_asset_enabled, hleaf]
    rw [if_neg hne,
      if_neg (by rw [FS.isDir_eq_false fs _ h2]; exact Bool.false_ne_true),
      if_pos (FS.isDir_eq_true fs _ h1)]
  · intro h1 h2
    refine ⟨"Folder not found at expected locations", ?_⟩
    simp only [toggle_asset_enabled, hleaf]
    rw [if_neg hne,
      if_neg (by rw [FS.isDir_eq_false fs _ h1]; exact Bool.false_ne_true),
      if_neg (by rw [FS.isDir_eq_false fs _ h2]; exact Bool.false_ne_true)]
  · intro h1 hd hf
    refine ⟨fs.renameDir (enabledLoc base storedPath) (disabledLoc base storedPath),
      ?_, ?_⟩
    · simp only [toggle_asset_enabled, hleaf]
      rw [if_neg hne, if_pos (FS.isDir_eq_true fs _ h1)]
    · have hmem : disabledLoc base storedPath ∈
          (fs.renameDir (enabledLoc base storedPath) (disabledLoc base storedPath)).dirs :=
        renameDir_mem_new fs _ _ h1
      have hnot : enabledLoc base storedPath ∉
          (fs.renameDir (enabledLoc base storedPath) (disabledLoc base storedPath)).dirs :=
        renameDir_not_mem_old fs _ _ hlen hnedis
      simp only [toggle_asset_enabled, hleaf]
      rw [if_neg hne,
        if_neg (by rw [FS.isDir_eq_false _ _ hnot]; exact Bool.false_ne_true),
        if_pos (FS.isDir_eq_true _ _ hmem), renameDir_roundtrip fs _ _ hd hf]

/-- Witness for claim C1: a concrete enabled mod folder toggled twice goes
through the disabled name and returns to the starting filesystem. -/
theorem toggle_asset_enabled_spec_witness :
    ∃ fs₁,
      toggle_asset_enabled
          ⟨[["root"], ["root", "c"], ["root", "c", "MyMod"]],
           [["root", "c", "MyMod", "mod.ini"]]⟩ ["root"] ["c", "MyMod"] =
        (Except.ok false, fs₁) ∧
      toggle_asset_enabled fs₁ ["root"] ["c", "MyMod"] =
        (Except.ok true,
          ⟨[["root"], ["root", "c"], ["root", "c", "MyMod"]],
           [["root", "c", "MyMod", "mod.ini"]]⟩) :=
  (toggle_asset_enabled_spec
      ⟨[["root"], ["root", "c"], ["root", "c", "MyMod"]],
       [["root", "c", "MyMod", "mod.ini"]]⟩ ["root"] ["c", "MyMod"] "MyMod"
      (by decide) (by decide)).2.2.2 (by decide) (by decide) (by decide)

/-! ## INI files -/

/-- An INI section: an association list of keys to values. -/
abbrev IniSection := List (String × String)

/-- A parsed INI file: an association list of section names to sections. -/
abbrev IniFile := List (String × IniSection)

def iniSection (f : IniFile) (name : String) : Option IniSection :=
  (f.find? (fun pr => pr.1 == name)).map (fun pr => pr.2)

def sectionGet (sec : IniSection) (key : String) : Option String :=
  (sec.find? (fun pr => pr.1 == key)).map (fun pr => pr.2)

/-- Model of `section.get(k₁).or_else(|| section.get(k₂))`. -/
def keyAlt (sec : IniSection) (k₁ k₂ : String) : Option String :=
  (sectionGet sec k₁).orElse (fun _ => sectionGet sec k₂)

def keyAlt3 (sec : IniSection) (k₁ k₂ k₃ : String) : Option String :=
  ((sectionGet sec k₁).orElse (fun _ => sectionGet sec k₂)).orElse
    (fun _ => sectionGet sec k₃)

/-- The fixed section priority order shared by the scanner deduction and
the archive analyzer. -/
def iniSectionNames : List String := ["Mod", "Settings", "Info", "General"]

/-! ## MOD_NAME_CLEANUP_REGEX

Model of `Regex::new(r"(?i)(_v\d+(\.\d+)*|_DISABLED|DISABLED_|\(disabled\)|^DISABLED_)")`
applied with `replace_all(s, "")` followed by `trim()`.  The regex engine
uses leftmost-first alternation; every branch matches at least one
character, so replacement is modelled by a left-to-right scan. -/

/-- Case-insensitive fixed-word match at the head of the character list. -/
def ciAtHead (pat : List Char) (l : List Char) : Bool :=
  (pat.map Char.toLower).isPrefixOf (l.map Char.toLower)

/-- Fuel-driven worker for the greedy match of `(\.\d+)*`. -/
def matchDotGroupsAux : Nat → List Char → Nat
  | 0, _ => 0
  | n + 1, l =>
    match l with
    | [] => 0
    | c :: rest =>
      if c = '.' then
        let d := (rest.takeWhile Char.isDigit).length
        if d > 0 then 1 + d + matchDotGroupsAux n (rest.drop d) else 0
      else 0

/-- Greedy match of `(\.\d+)*` returning the number of consumed chars. -/
def matchDotGroups (l : List Char) : Nat := matchDotGroupsAux l.length l

/-- Match of the branch `_v\d+(\.\d+)*` at the head, returning the match
length when it succeeds. -/
def matchVersionBranch (l : List Char) : Option Nat :=
  match l with
  | '_' :: c :: rest =>
    if c.toLower = 'v' then
      let d := (rest.takeWhile Char.isDigit).length
      if d > 0 then some (2 + d + matchDotGroups (rest.drop d)) else none
    else none
  | _ => none

/-- Leftmost-first alternation of the four cleanup branches, returning
the length of the match found at the head of `l`, if any. -/
def matchCleanupAlt (l : List Char) : Option Nat :=
  match matchVersionBranch l with
  | some n => some n
  | none =>
    if ciAtHead "_disabled".data l then some 9
    else if ciAtHead "disabled_".data l then some 9
    else if ciAtHead "(disabled)".data l then some 10
    else none

/-- `replace_all` scan: at each position either consume a match (dropping
it) or keep the character and move on. -/
def cleanupScan : Nat → List Char → List Char
  | 0, l => l
  | _, [] => []
  | fuel + 1, c :: rest =>
    match matchCleanupAlt (c :: rest) with
    | some n => cleanupScan fuel ((c :: rest).drop n)
    | none => c :: cleanupScan fuel rest

/-- Model of `MOD_NAME_CLEANUP_REGEX.replace_all(s, "").trim().to_string()`. -/
def cleanupModName (s : String) : String :=
  trimStr ⟨cleanupScan s.data.length s.data⟩

/-! ## Descriptor passes

`DescState` is the running value of the fields that
`deduce_mod_info_v2` reads from the INI file (lines 277-292): each
present section overwrites the running values, so the last matching
section wins.  `AnalyzeState` is the analogous state of
the section loop of `analyze_archive` (lines 1712-1729), which applies the
name cleanup at capture, stores the author verbatim, and breaks out of
the loop as soon as any relevant field has been captured. -/

structure DescState where
  modName : Option String
  author : Option String
  description : Option String
  target : Option String
  typeTag : Option String
deriving DecidableEq

def descInit : DescState := ⟨none, none, none, none, none⟩

def descUpdate (st : DescState) (sec : IniSection) : DescState :=
  let st₁ := match keyAlt sec "Name" "ModName" with
    | some v => { st with modName := some (trimStr v) }
    | none => st
  let st₂ := match sectionGet sec "Author" with
    | some v => { st₁ with author := some (trimStr v) }
    | none => st₁
  let st₃ := match sectionGet sec "Description" with
    | some v => { st₂ with description := some (trimStr v) }
    | none => st₂
  let st₄ := match keyAlt3 sec "Target" "Entity" "Character" with
    | some v => { st₃ with target := some (trimStr v) }
    | none => st₃
  match keyAlt sec "Type" "Category" with
  | some v => { st₄ with typeTag := some (trimStr v) }
  | none => st₄

/-- Descriptor pass of the scanner deduction: fold every present section
in priority order; the last matching section wins. -/
def scanDesc (f : IniFile) : DescState :=
  iniSectionNames.foldl
    (fun st sn =>
      match iniSection f sn with
      | some sec => descUpdate st sec
      | none => st)
    descInit

def descOf : Option IniFile → DescState
  | some f => scanDesc f
  | none => descInit

structure AnalyzeState where
  name : Option String
  author : Option String
  target : Option String
  typeTag : Option String
deriving DecidableEq

def analyzeInit : AnalyzeState := ⟨none, none, none, none⟩

def analyzeUpdate (st : AnalyzeState) (sec : IniSection) : AnalyzeState :=
  let st₁ := match keyAlt sec "Name" "ModName" with
    | some v => { st with name := some (cleanupModName v) }
    | none => st
  let st₂ := match sectionGet sec "Author" with
    | some v => { st₁ with author := some v }
    | none => st₁
  let st₃ := match keyAlt3 sec "Target" "Entity" "Character" with
    | some v => { st₂ with target := some (trimStr v) }
    | none => st₂
  match keyAlt sec "Type" "Category" with
  | some v => { st₃ with typeTag := some (trimStr v) }
  | none => st₃

/-- Section loop of the archive analyzer: after processing a present
section, the loop breaks as soon as any relevant field has been found. -/
def analyzeSectionsLoop (f : IniFile) : List String → AnalyzeState → AnalyzeState
  | [], st => st
  | sn :: rest, st =>
    match iniSection f sn with
    | none => analyzeSectionsLoop f rest st
    | some sec =>
      let st' := analyzeUpdate st sec
      if st'.name.isSome || st'.author.isSome || st'.target.isSome || st'.typeTag.isSome
      then st'
      else analyzeSectionsLoop f rest st'

/-- The descriptor pass of `analyze_archive`, run on the parsed INI of
the first likely mod root. -/
def analyzeDescriptor (f : IniFile) : AnalyzeState :=
  analyzeSectionsLoop f iniSectionNames analyzeInit

/-! ## Deduction maps and the ancestor-folder walk -/

/-- Model of the `DeductionMaps` struct: hash maps become association
lists (keys unique in the real maps; `find?` models `HashMap::get`). -/
structure DeductionMaps where
  categorySlugToId : List (String × Nat)
  entitySlugToId : List (String × Nat)
  lcCategoryNameToSlug : List (String × String)
  lcEntityNameToSlug : List (String × String)

def alookupN (m : List (String × Nat)) (k : String) : Option Nat :=
  (m.find? (fun pr => pr.1 == k)).map (fun pr => pr.2)

def alookupS (m : List (String × String)) (k : String) : Option String :=
  (m.find? (fun pr => pr.1 == k)).map (fun pr => pr.2)

/-- Model of `HashMap::contains_key`. -/
def containsKeyN (m : List (String × Nat)) (k : String) : Bool :=
  (alookupN m k).isSome

/-- Fuel-driven worker for the parent-folder walk. -/
def ancestorNamesAux (base : FPath) : Nat → FPath → List String
  | 0, _ => []
  | n + 1, p =>
    if p = [] then []
    else if p = base ∨ p.dropLast = base then []
    else leafName p :: ancestorNamesAux base n p.dropLast

/-- The names inspected by the parent-folder walk of
`deduce_mod_info_v2` (lines 225-260), starting at path `p` and walking
upward: the walk stops at the filesystem root, at the managed root
`base`, or at a folder whose parent is `base`. -/
def ancestorNames (base p : FPath) : List String :=
  ancestorNamesAux base p.length p

theorem ancestorNamesAux_congr (base : FPath) (n : Nat) (p : FPath)
    (h : p.length ≤ n) :
    ancestorNamesAux base n p = ancestorNamesAux base p.length p := by
  induction n generalizing p with
  | zero =>
    have : p = [] := List.eq_nil_of_length_eq_zero (Nat.le_zero.mp h)
    subst this
    rfl
  | succ n ih =>
    cases hp : decide (p = []) with
    | true =>
      have hpe : p = [] := of_decide_eq_true hp
      subst hpe
      rfl
    | false =>
      have hpe : p ≠ [] := of_decide_eq_false hp
      obtain ⟨k, hk⟩ : ∃ k, p.length = k + 1 := by
        cases hl : p.length with
        | zero => exact absurd (List.eq_nil_of_length_eq_zero hl) hpe
        | succ k => exact ⟨k, rfl⟩
      have hdl : p.dropLast.length = k := by
        rw [List.length_dropLast, hk]
        omega
      rw [hk]
      simp only [ancestorNamesAux, hpe, if_false]
      by_cases hstop : p = base ∨ p.dropLast = base
      · rw [if_pos hstop, if_pos hstop]
      · rw [if_neg hstop, if_neg hstop]
        have h1 : p.dropLast.length ≤ n := by omega
        rw [ih p.dropLast h1, hdl]

/-- The unfolding equation of the walk, matching the recursion of the
Rust `while let` loop. -/
theorem ancestorNames_eq (base p : FPath) :
    ancestorNames base p =
      if p = [] then []
      else if p = base ∨ p.dropLast = base then []
      else leafName p :: ancestorNames base p.dropLast := by
  by_cases hpe : p = []
  · subst hpe
    rfl
  · obtain ⟨k, hk⟩ : ∃ k, p.length = k + 1 := by
      cases hl : p.length with
      | zero => exact absurd (List.eq_nil_of_length_eq_zero hl) hpe
      | succ k => exact ⟨k, rfl⟩
    have hdl : p.dropLast.length = k := by
      rw [List.length_dropLast, hk]
      omega
    rw [if_neg hpe]
    unfold ancestorNames
    rw [hk]
    simp only [ancestorNamesAux, hpe, if_false]
    by_cases hstop : p = base ∨ p.dropLast = base
    · rw [if_pos hstop, if_pos hstop]
    · rw [if_neg hstop, if_neg hstop]
      rw [ancestorNamesAux_congr base k p.dropLast (by omega), hdl]

/-- The entity update of one walk step (lines 234-245): the entity
lookup is frozen after a first match. -/
def stepEnt (maps : DeductionMaps) (fe : Option String) (nm : String) :
    Option String :=
  if fe.isNone then
    if containsKeyN maps.entitySlugToId nm then some nm
    else match alookupS maps.lcEntityNameToSlug (lowerStr nm) with
      | some slug => some slug
      | none => fe
  else fe

/-- The category update of one walk step (lines 247-257): a category
slug match always overwrites; a category name match overwrites only when
no category is resolved yet or the resolved value is not itself a known
slug. -/
def stepCat (maps : DeductionMaps) (fc : Option String) (nm : String) :
    Option String :=
  if containsKeyN maps.categorySlugToId nm then some nm
  else match alookupS maps.lcCategoryNameToSlug (lowerStr nm) with
    | some slug =>
      match fc with
      | none => some slug
      | some c => if containsKeyN maps.categorySlugToId c then fc else some slug
    | none => fc

/-- One step of the walk (the body of the `while` loop). -/
def stepFolder (maps : DeductionMaps) (st : Option String × Option String)
    (nm : String) : Option String × Option String :=
  (stepEnt maps st.1 nm, stepCat maps st.2 nm)

/-- The complete parent-folder walk of `deduce_mod_info_v2`, starting
from the parent of the candidate folder. -/
def deduceWalk (maps : DeductionMaps) (base modPath : FPath) :
    Option String × Option String :=
  (ancestorNames base modPath.dropLast).foldl (stepFolder maps) (none, none)

/-! ## deduce_mod_info_v2 -/

def otherSuffix : String := "-other"

structure DeducedInfo where
  entitySlug : String
  modName : String
  modTypeTag : Option String
  author : Option String
  description : Option String
  imageFilename : Option String
deriving DecidableEq

/-- The resolved entity of deduction: the entity of the walk if found,
otherwise the INI target hint matched against entity slugs and then
case-insensitive entity names (lines 294-306). -/
def deduceEntityRes (maps : DeductionMaps) (base modPath : FPath)
    (ini : Option IniFile) : Option String :=
  let fe := (deduceWalk maps base modPath).1
  if fe.isSome then fe
  else match (descOf ini).target with
    | some t =>
      if containsKeyN maps.entitySlugToId t then some t
      else match alookupS maps.lcEntityNameToSlug (lowerStr t) with
        | some slug => some slug
        | none => none
    | none => none

/-- The resolved category of deduction: the category of the walk if found,
otherwise the INI type hint matched against category slugs and then
case-insensitive category names (lines 308-320). -/
def deduceCategoryRes (maps : DeductionMaps) (base modPath : FPath)
    (ini : Option IniFile) : Option String :=
  let fc := (deduceWalk maps base modPath).2
  if fc.isSome then fc
  else match (descOf ini).typeTag with
    | some t =>
      if containsKeyN maps.categorySlugToId t then some t
      else match alookupS maps.lcCategoryNameToSlug (lowerStr t) with
        | some slug => some slug
        | none => none
    | none => none

/-- Model of `deduce_mod_info_v2` (lines 205-346).  `modPath` is the
absolute path of the candidate folder, `base` the managed root, `ini` the
parsed first `.ini` directly inside the folder (`none` when absent or
unparseable), and `preview` the result of `find_preview_image`.
Returns `none` exactly when the folder has no readable leaf name. -/
def deduce_mod_info_v2 (maps : DeductionMaps) (base modPath : FPath)
    (ini : Option IniFile) (preview : Option String) : Option DeducedInfo :=
  match modPath.getLast? with
  | none => none
  | some folderName =>
    let ds := descOf ini
    let slug := match deduceEntityRes maps base modPath ini with
      | some e => e
      | none =>
        match deduceCategoryRes maps base modPath ini with
        | some c => c ++ otherSuffix
        | none => "characters" ++ otherSuffix
    let rawName := (ds.modName).getD folderName
    let cleaned := cleanupModName rawName
    let finalName := if cleaned = "" then folderName else cleaned
    some ⟨slug, finalName, ds.typeTag, ds.author, ds.description, preview⟩

/-! ## Claim C7: the stop condition of the ancestor walk -/

theorem dropLast_append_ne_nil (l₁ l₂ : FPath) (h : l₂ ≠ []) :
    (l₁ ++ l₂).dropLast = l₁ ++ l₂.dropLast := by
  obtain ⟨x, hx⟩ := Option.isSome_iff_exists.mp (List.getLast?_isSome.mpr h)
  have hdec := getLast?_decomp l₂ x hx
  conv_lhs => rw [hdec]
  rw [← List.append_assoc, List.dropLast_concat]

theorem ancestorNames_base_append (base xs : FPath) :
    ancestorNames base (base ++ xs) = (xs.drop 1).reverse := by
  induction xs using List.reverseRecOn with
  | nil =>
    simp only [List.append_nil, List.drop_nil, List.reverse_nil]
    rw [ancestorNames_eq]
    by_cases hb : base = []
    · simp [hb]
    · simp [hb]
  | append_singleton ys y ih =>
    have hassoc : base ++ (ys ++ [y]) = (base ++ ys) ++ [y] := by
      rw [List.append_assoc]
    rw [hassoc, ancestorNames_eq]
    have h1 : (base ++ ys) ++ [y] ≠ [] := by simp
    have h2 : ((base ++ ys) ++ [y]).dropLast = base ++ ys := List.dropLast_concat
    by_cases hys : ys = []
    · subst hys
      simp
    · have h3 : (base ++ ys) ++ [y] ≠ base := by
        intro h
        have := congrArg List.length h
        simp only [List.length_append, List.length_cons, List.length_nil] at this
        have hylen : ys.length ≠ 0 := fun h0 => hys (List.eq_nil_of_length_eq_zero h0)
        omega
      have h4 : ((base ++ ys) ++ [y]).dropLast ≠ base := by
        rw [h2]
        intro h
        exact hys (by simpa using congrArg (List.drop base.length) h)
      rw [if_neg h1, if_neg (by rw [not_or]; exact ⟨h3, h4⟩)]
      have h5 : leafName ((base ++ ys) ++ [y]) = y := by
        simp [leafName, List.getLast?_concat]
      rw [h5, h2, ih]
      have h6 : (ys ++ [y]).drop 1 = ys.drop 1 ++ [y] := by
        rw [List.drop_append_of_le_length]
        exact Nat.one_le_iff_ne_zero.mpr
          (fun h0 => hys (List.eq_nil_of_length_eq_zero h0))
      rw [h6, List.reverse_append]
      simp

/-- Claim C7: the ancestor-folder walk, starting from the parent of the
parent, stops at the managed root or at a folder whose parent is the
managed root.  For a candidate at `base ++ rel` the inspected folder
names are exactly the segments of `rel` strictly between the first
segment and the leaf, in bottom-up order; hence the folder directly
under the managed root is never inspected, and a candidate two levels
below the root has no inspected ancestor at all. -/
theorem ancestor_walk_stop_spec (base rel : FPath) (h : rel ≠ []) :
    ancestorNames base ((base ++ rel).dropLast) = (rel.dropLast.drop 1).reverse ∧
    (∀ x leaf, rel = [x, leaf] →
      ancestorNames base ((base ++ rel).dropLast) = []) := by
  have hmain : ancestorNames base ((base ++ rel).dropLast) =
      (rel.dropLast.drop 1).reverse := by
    rw [dropLast_append_ne_nil base rel h, ancestorNames_base_append]
  refine ⟨hmain, ?_⟩
  intro x leaf hrel
  subst hrel
  rw [hmain]
  rfl

/-- Witness for claim C7: under root `r`, the candidate `r/X/Y/Mod` has
exactly the single ancestor `Y` inspected (`X`, directly under the root,
is skipped), and the two-level candidate `r/X/Mod` has none. -/
theorem ancestor_walk_stop_spec_witness :
    ancestorNames ["r"] ["r", "X", "Y"] = ["Y"] ∧
    ancestorNames ["r"] ["r", "X"] = [] :=
  ⟨(ancestor_walk_stop_spec ["r"] ["X", "Y", "Mod"] (by decide)).1,
   (ancestor_walk_stop_spec ["r"] ["X", "Mod"] (by decide)).2 "X" "Mod" rfl⟩

/-! ## Claim C8: deduction never fails -/

/-- Claim C8: for every candidate folder with a readable leaf name,
`deduce_mod_info_v2` returns a result, and its entity slug follows the
fallback chain: the slug of the resolved entity if an entity was resolved,
else the slug of the resolved category with the `-other` suffix, else the
fixed `-other` slug of the default category — for every INI argument,
including `none` (no descriptor or an unparseable one). -/
theorem deduce_never_fails_spec (maps : DeductionMaps) (base modPath : FPath)
    (ini : Option IniFile) (preview : Option String) (h : modPath ≠ []) :
    ∃ info, deduce_mod_info_v2 maps base modPath ini preview = some info ∧
      info.entitySlug =
        (match deduceEntityRes maps base modPath ini with
         | some e => e
         | none =>
           match deduceCategoryRes maps base modPath ini with
           | some c => c ++ otherSuffix
           | none => "characters" ++ otherSuffix) := by
  obtain ⟨leaf, hleaf⟩ := Option.isSome_iff_exists.mp (List.getLast?_isSome.mpr h)
  simp only [deduce_mod_info_v2, hleaf]
  exact ⟨_, rfl, rfl⟩

/-- Witness for claim C8: a folder directly under the root with no
descriptor and an empty taxonomy still deduces, landing on the default
fallback slug. -/
theorem deduce_never_fails_spec_witness :
    ∃ info, deduce_mod_info_v2 ⟨[], [], [], []⟩ [] ["Mod"] none none = some info ∧
      info.entitySlug = "characters-other" := by
  obtain ⟨info, h1, h2⟩ :=
    deduce_never_fails_spec ⟨[], [], [], []⟩ [] ["Mod"] none none (by decide)
  refine ⟨info, h1, ?_⟩
  rw [h2]
  decide

/-! ## Claim C4: category overwriting in the ancestor walk -/

theorem foldl_stepFolder_snd (maps : DeductionMaps) (names : List String)
    (st : Option String × Option String) :
    (names.foldl (stepFolder maps) st).2 = names.foldl (stepCat maps) st.2 := by
  induction names generalizing st with
  | nil => rfl
  | cons nm rest ih => simp only [List.foldl_cons, ih, stepFolder]

theorem coh_value_isSlug (maps : DeductionMaps)
    (coh : ∀ pr ∈ maps.lcCategoryNameToSlug,
      containsKeyN maps.categorySlugToId pr.2 = true)
    (k v : String) (hv : alookupS maps.lcCategoryNameToSlug k = some v) :
    containsKeyN maps.categorySlugToId v = true := by
  unfold alookupS at hv
  obtain ⟨pr, hfind, hsnd⟩ := Option.map_eq_some'.mp hv
  have hmem := List.mem_of_find?_eq_some hfind
  rw [← hsnd]
  exact coh pr hmem

theorem foldl_stepCat_char (maps : DeductionMaps)
    (coh : ∀ pr ∈ maps.lcCategoryNameToSlug,
      containsKeyN maps.categorySlugToId pr.2 = true) :
    ∀ (names : List String) (fc₀ : Option String),
      (fc₀ = none ∨ ∃ c, fc₀ = some c ∧ containsKeyN maps.categorySlugToId c = true) →
      names.foldl (stepCat maps) fc₀ =
        match names.reverse.find? (fun nm => containsKeyN maps.categorySlugToId nm) with
        | some nm => some nm
        | none =>
          match fc₀ with
          | some c => some c
          | none =>
            (names.find?
                (fun nm => (alookupS maps.lcCategoryNameToSlug (lowerStr nm)).isSome)).bind
              (fun nm => alookupS maps.lcCategoryNameToSlug (lowerStr nm)) := by
  intro names
  induction names with
  | nil =>
    intro fc₀ hinv
    cases fc₀ <;> rfl
  | cons nm rest ih =>
    intro fc₀ hinv
    rw [List.foldl_cons]
    have hrev : (nm :: rest).reverse = rest.reverse ++ [nm] := by simp
    rw [hrev, List.find?_append]
    by_cases hslug : containsKeyN maps.categorySlugToId nm = true
    · have hstep : stepCat maps fc₀ nm = some nm := by
        simp [stepCat, hslug]
      rw [hstep, ih (some nm) (Or.inr ⟨nm, rfl, hslug⟩)]
      rw [List.find?_cons_of_pos _ hslug]
      cases hfound : rest.reverse.find? (fun x => containsKeyN maps.categorySlugToId x) with
      | none => simp [Option.or]
      | some m => simp [Option.or]
    · have hslugf : containsKeyN maps.categorySlugToId nm = false :=
        Bool.eq_false_iff.mpr hslug
      rw [@List.find?_cons_of_neg _ (fun x => containsKeyN maps.categorySlugToId x)
        nm [] (by simp [hslugf])]
      cases hname : alookupS maps.lcCategoryNameToSlug (lowerStr nm) with
      | some v =>
        have hvslug : containsKeyN maps.categorySlugToId v = true :=
          coh_value_isSlug maps coh _ v hname
        cases hinv with
        | inr hc =>
          obtain ⟨c, hceq, hck⟩ := hc
          subst hceq
          have hstep : stepCat maps (some c) nm = some c := by
            simp [stepCat, hslugf, hname, hck]
          rw [hstep, ih (some c) (Or.inr ⟨c, rfl, hck⟩)]
          cases hfound : rest.reverse.find?
              (fun x => containsKeyN maps.categorySlugToId x) with
          | none => simp [Option.or]
          | some m => simp [Option.or]
        | inl hc =>
          subst hc
          have hstep : stepCat maps none nm = some v := by
            simp [stepCat, hslugf, hname]
          rw [hstep, ih (some v) (Or.inr ⟨v, rfl, hvslug⟩)]
          rw [@List.find?_cons_of_pos _ (fun x =>
            (alookupS maps.lcCategoryNameToSlug (lowerStr x)).isSome) nm rest
            (by simp [hname])]
          cases hfound : rest.reverse.find?
              (fun x => containsKeyN maps.categorySlugToId x) with
          | none => simp [Option.or, hname]
          | some m => simp [Option.or]
      | none =>
        have hstep : stepCat maps fc₀ nm = fc₀ := by
          simp [stepCat, hslugf, hname]
        rw [hstep, ih fc₀ hinv, @List.find?_cons_of_neg _ (fun x =>
          (alookupS maps.lcCategoryNameToSlug (lowerStr x)).isSome) nm rest
          (by simp [hname])]
        cases hfound : rest.reverse.find?
            (fun x => containsKeyN maps.categorySlugToId x) with
        | none => cases fc₀ <;> simp [Option.or]
        | some m => simp [Option.or]

/-- Claim C4 (amended): in the ancestor-folder pass an exact category
slug match always overwrites the previous category result, while a
case-insensitive category name match is kept only when no category is
resolved yet or the value resolved so far is not a known slug.
Consequently, when every category name maps to a known category slug,
the resolved category is the slug match found last in the walk, and
only when no ancestor matches a slug exactly is it the first ancestor
matching a category name case-insensitively; a later name match never
overrides an earlier slug match. -/
theorem deduceWalk_category_spec (maps : DeductionMaps) (base modPath : FPath)
    (coh : ∀ pr ∈ maps.lcCategoryNameToSlug,
      containsKeyN maps.categorySlugToId pr.2 = true) :
    (deduceWalk maps base modPath).2 =
      match (ancestorNames base modPath.dropLast).reverse.find?
          (fun nm => containsKeyN maps.categorySlugToId nm) with
      | some nm => some nm
      | none =>
        ((ancestorNames base modPath.dropLast).find?
            (fun nm => (alookupS maps.lcCategoryNameToSlug (lowerStr nm)).isSome)).bind
          (fun nm => alookupS maps.lcCategoryNameToSlug (lowerStr nm)) := by
  unfold deduceWalk
  rw [foldl_stepFolder_snd, foldl_stepCat_char maps coh _ none (Or.inl rfl)]

/-- The taxonomy of the claim C4 counterexample and witness: categories
`catA` and `catB`, the latter carrying the display name `BName`. -/
def cexMaps : DeductionMaps :=
  ⟨[("catA", 1), ("catB", 2)], [], [("bname", "catB")], []⟩

/-- Counterexample to claim C4 as stated: under managed root `[]` the
candidate `X/BName/catA/Mod` walks `catA` first (exact slug match) and
then `BName` (case-insensitive name match for `catB`, found later in
the walk, nearest the root).  The later name match does not overwrite
the earlier slug match, so deduction resolves `catA-other` and not
`catB-other` as the claim requires. -/
theorem deduceWalk_category_cex :
    ancestorNames [] (["X", "BName", "catA", "Mod"].dropLast) = ["catA", "BName"] ∧
    containsKeyN cexMaps.categorySlugToId "catA" = true ∧
    alookupS cexMaps.lcCategoryNameToSlug (lowerStr "BName") = some "catB" ∧
    deduce_mod_info_v2 cexMaps [] ["X", "BName", "catA", "Mod"] none none =
      some ⟨"catA-other", "Mod", none, none, none, none⟩ ∧
    ("catA-other" : String) ≠ "catB-other" := by
  refine ⟨by decide, by decide, by decide, by decide, by decide⟩

/-- Witness for the amended claim C4 at a concrete taxonomy and path. -/
theorem deduceWalk_category_spec_witness :
    (deduceWalk cexMaps [] ["X", "BName", "catA", "Mod"]).2 =
      match (ancestorNames [] (["X", "BName", "catA", "Mod"]).dropLast).reverse.find?
          (fun nm => containsKeyN cexMaps.categorySlugToId nm) with
      | some nm => some nm
      | none =>
        ((ancestorNames [] (["X", "BName", "catA", "Mod"]).dropLast).find?
            (fun nm => (alookupS cexMaps.lcCategoryNameToSlug (lowerStr nm)).isSome)).bind
          (fun nm => alookupS cexMaps.lcCategoryNameToSlug (lowerStr nm)) :=
  deduceWalk_category_spec cexMaps [] ["X", "BName", "catA", "Mod"] (by decide)

/-! ## Claim C6: scanner descriptor pass versus analyze descriptor pass -/

/-- A section defines a relevant field when it carries any of the
name/author/target/type keys the two descriptor passes read. -/
def definesRelevantField (sec : IniSection) : Bool :=
  (keyAlt sec "Name" "ModName").isSome || (sectionGet sec "Author").isSome ||
  (keyAlt3 sec "Target" "Entity" "Character").isSome ||
  (keyAlt sec "Type" "Category").isSome

theorem analyzeUpdate_fields (st : AnalyzeState) (sec : IniSection) :
    analyzeUpdate st sec =
      ⟨match keyAlt sec "Name" "ModName" with
        | some v => some (cleanupModName v)
        | none => st.name,
       match sectionGet sec "Author" with
        | some v => some v
        | none => st.author,
       match keyAlt3 sec "Target" "Entity" "Character" with
        | some v => some (trimStr v)
        | none => st.target,
       match keyAlt sec "Type" "Category" with
        | some v => some (trimStr v)
        | none => st.typeTag⟩ := by
  unfold analyzeUpdate
  cases h1 : keyAlt sec "Name" "ModName" <;>
    cases h2 : sectionGet sec "Author" <;>
      cases h3 : keyAlt3 sec "Target" "Entity" "Character" <;>
        cases h4 : keyAlt sec "Type" "Category" <;> rfl

theorem descUpdate_fields (st : DescState) (sec : IniSection) :
    descUpdate st sec =
      ⟨match keyAlt sec "Name" "ModName" with
        | some v => some (trimStr v)
        | none => st.modName,
       match sectionGet sec "Author" with
        | some v => some (trimStr v)
        | none => st.author,
       match sectionGet sec "Description" with
        | some v => some (trimStr v)
        | none => st.description,
       match keyAlt3 sec "Target" "Entity" "Character" with
        | some v => some (trimStr v)
        | none => st.target,
       match keyAlt sec "Type" "Category" with
        | some v => some (trimStr v)
        | none => st.typeTag⟩ := by
  unfold descUpdate
  cases h1 : keyAlt sec "Name" "ModName" <;>
    cases h2 : sectionGet sec "Author" <;>
      cases h3 : sectionGet sec "Description" <;>
        cases h4 : keyAlt3 sec "Target" "Entity" "Character" <;>
          cases h5 : keyAlt sec "Type" "Category" <;> rfl

theorem analyzeUpdate_init_of_not_defines (sec : IniSection)
    (h : definesRelevantField sec = false) :
    analyzeUpdate analyzeInit sec = analyzeInit := by
  unfold definesRelevantField at h
  rw [analyzeUpdate_fields]
  cases h1 : keyAlt sec "Name" "ModName" <;>
    cases h2 : sectionGet sec "Author" <;>
      cases h3 : keyAlt3 sec "Target" "Entity" "Character" <;>
        cases h4 : keyAlt sec "Type" "Category" <;>
          simp [h1, h2, h3, h4] at h ⊢

theorem analyzeUpdate_init_break (sec : IniSection) :
    ((analyzeUpdate analyzeInit sec).name.isSome ||
     (analyzeUpdate analyzeInit sec).author.isSome ||
     (analyzeUpdate analyzeInit sec).target.isSome ||
     (analyzeUpdate analyzeInit sec).typeTag.isSome) = definesRelevantField sec := by
  rw [analyzeUpdate_fields]
  unfold definesRelevantField
  cases h1 : keyAlt sec "Name" "ModName" <;>
    cases h2 : sectionGet sec "Author" <;>
      cases h3 : keyAlt3 sec "Target" "Entity" "Character" <;>
        cases h4 : keyAlt sec "Type" "Category" <;> rfl

theorem analyzeSectionsLoop_first_hit (f : IniFile) (names : List String) :
    analyzeSectionsLoop f names analyzeInit =
      match (names.filterMap (fun sn => iniSection f sn)).find?
          definesRelevantField with
      | some sec => analyzeUpdate analyzeInit sec
      | none => analyzeInit := by
  induction names with
  | nil => rfl
  | cons sn rest ih =>
    rw [List.filterMap_cons]
    cases hs : iniSection f sn with
    | none =>
      simp only [analyzeSectionsLoop, hs]
      exact ih
    | some sec =>
      simp only [analyzeSectionsLoop, hs]
      rw [analyzeUpdate_init_break]
      cases hd : definesRelevantField sec with
      | true =>
        rw [if_pos rfl]
        rw [List.find?_cons_of_pos _ hd]
      | false =>
        rw [if_neg (by simp)]
        rw [analyzeUpdate_init_of_not_defines sec hd, ih,
          @List.find?_cons_of_neg _ definesRelevantField sec
            ((rest.filterMap (fun sn => iniSection f sn))) (by simp [hd])]

theorem scanFold_modName (f : IniFile) (names : List String) (st₀ : DescState) :
    (names.foldl (fun st sn => match iniSection f sn with
      | some sec => descUpdate st sec
      | none => st) st₀).modName =
    (names.filterMap (fun sn => iniSection f sn)).foldl
      (fun x sec => match keyAlt sec "Name" "ModName" with
        | some v => some (trimStr v)
        | none => x) st₀.modName := by
  induction names generalizing st₀ with
  | nil => rfl
  | cons sn rest ih =>
    rw [List.foldl_cons, List.filterMap_cons]
    cases hs : iniSection f sn with
    | none => exact ih st₀
    | some sec =>
      rw [ih, List.foldl_cons]
      simp only [descUpdate_fields]

theorem scanFold_author (f : IniFile) (names : List String) (st₀ : DescState) :
    (names.foldl (fun st sn => match iniSection f sn with
      | some sec => descUpdate st sec
      | none => st) st₀).author =
    (names.filterMap (fun sn => iniSection f sn)).foldl
      (fun x sec => match sectionGet sec "Author" with
        | some v => some (trimStr v)
        | none => x) st₀.author := by
  induction names generalizing st₀ with
  | nil => rfl
  | cons sn rest ih =>
    rw [List.foldl_cons, List.filterMap_cons]
    cases hs : iniSection f sn with
    | none => exact ih st₀
    | some sec =>
      rw [ih, List.foldl_cons]
      simp only [descUpdate_fields]

theorem overwriteFold_char (secs : List IniSection) (key : IniSection → Option String)
    (g : String → String) (x₀ : Option String) :
    secs.foldl (fun x sec => match key sec with
      | some v => some (g v)
      | none => x) x₀ =
      match secs.reverse.find? (fun sec => (key sec).isSome) with
      | some sec => (key sec).map g
      | none => x₀ := by
  induction secs generalizing x₀ with
  | nil => rfl
  | cons sec rest ih =>
    rw [List.foldl_cons]
    have hrev : (sec :: rest).reverse = rest.reverse ++ [sec] := by simp
    rw [hrev, List.find?_append, ih]
    cases hk : key sec with
    | some v =>
      cases hfound : rest.reverse.find? (fun s => (key s).isSome) with
      | some m => simp [Option.or]
      | none =>
        rw [@List.find?_cons_of_pos _ (fun s => (key s).isSome) sec [] (by simp [hk])]
        simp [Option.or, hk]
    | none =>
      rw [@List.find?_cons_of_neg _ (fun s => (key s).isSome) sec [] (by simp [hk])]
      cases hfound : rest.reverse.find? (fun s => (key s).isSome) with
      | some m => simp [Option.or]
      | none => simp [Option.or]

/-- Claim C6 (amended): both passes read the sections in the fixed
priority order Mod, Settings, Info, General, but they disagree on which
matching section wins.  The analyzer stops after the first present
section that defines any relevant field, so its whole result is that
update from that single section (name cleaned at capture, author stored
untrimmed); the scanner pass folds every present section, so for each
field the value of the last section defining it wins (trimmed). -/
theorem descriptor_pass_comparison (f : IniFile) :
    analyzeDescriptor f =
      (match (iniSectionNames.filterMap (fun sn => iniSection f sn)).find?
          definesRelevantField with
        | some sec => analyzeUpdate analyzeInit sec
        | none => analyzeInit) ∧
    (scanDesc f).modName =
      (match (iniSectionNames.filterMap (fun sn => iniSection f sn)).reverse.find?
          (fun sec => (keyAlt sec "Name" "ModName").isSome) with
        | some sec => (keyAlt sec "Name" "ModName").map trimStr
        | none => none) ∧
    (scanDesc f).author =
      (match (iniSectionNames.filterMap (fun sn => iniSection f sn)).reverse.find?
          (fun sec => (sectionGet sec "Author").isSome) with
        | some sec => (sectionGet sec "Author").map trimStr
        | none => none) := by
  refine ⟨analyzeSectionsLoop_first_hit f iniSectionNames, ?_, ?_⟩
  · rw [scanDesc, scanFold_modName, overwriteFold_char]
    cases List.find? (fun sec => (keyAlt sec "Name" "ModName").isSome)
      ((iniSectionNames.filterMap (fun sn => iniSection f sn)).reverse) <;> rfl
  · rw [scanDesc, scanFold_author, overwriteFold_char]
    cases List.find? (fun sec => (sectionGet sec "Author").isSome)
      ((iniSectionNames.filterMap (fun sn => iniSection f sn)).reverse) <;> rfl

/-- The descriptor of the claim C6 counterexample: two sections both
defining a name. -/
def cexIni : IniFile := [("Mod", [("Name", "A")]), ("Settings", [("Name", "B")])]

/-- Counterexample to claim C6 as stated: on the same descriptor the
scanner pass takes the last matching section (`B`) while the analyzer
breaks after the first (`A`), so the two do not deduce the same name;
the full deduction confirms the scanner side. -/
theorem descriptor_pass_cex :
    (scanDesc cexIni).modName = some "B" ∧
    (analyzeDescriptor cexIni).name = some "A" ∧
    deduce_mod_info_v2 ⟨[], [], [], []⟩ [] ["F"] (some cexIni) none =
      some ⟨"characters-other", "B", none, none, none, none⟩ ∧
    (some "B" : Option String) ≠ some "A" := by
  refine ⟨by decide, by decide, by decide, by decide⟩

/-! ## Canonical stored relative paths

The three mutating operations each derive the string stored in the
`folder_name` column.  All three join segments with forward slashes
(the Rust code builds a `PathBuf` and applies `replace("\\", "/")`). -/

/-- Scanner (lines 1130-1141): parent of the relative path joined with
the leaf stripped of every leading `DISABLED_` marker. -/
def scanStoredSegs (rel : FPath) : FPath :=
  rel.dropLast ++ [stripDisabledMarks (leafName rel)]

def scanStoredPath (rel : FPath) : String :=
  String.intercalate "/" (scanStoredSegs rel)

/-- Importer (line 1891): `mod_name.trim().replace(" ", "_").replace(".", "_")`. -/
def sanitizeFolderName (name : String) : String :=
  ⟨(trimChars name.data).map (fun c => if c = ' ' ∨ c = '.' then '_' else c)⟩

/-- Importer (lines 1990-1994): `category/entity/folderName`. -/
def importStoredSegs (catSlug entSlug modName : String) : FPath :=
  [catSlug, entSlug, sanitizeFolderName modName]

def importStoredPath (catSlug entSlug modName : String) : String :=
  String.intercalate "/" (importStoredSegs catSlug entSlug modName)

/-- Relocation (lines 1326-1331): `newCategory/newEntity/` plus the
current leaf stripped of the `DISABLED_` marker. -/
def relocStoredSegs (newCatSlug newEntSlug leaf : String) : FPath :=
  [newCatSlug, newEntSlug, stripDisabledMarks leaf]

def relocStoredPath (newCatSlug newEntSlug leaf : String) : String :=
  String.intercalate "/" (relocStoredSegs newCatSlug newEntSlug leaf)

/-- Parse a stored `folder_name` string back into segments, dropping
empty components as `PathBuf` does. -/
def splitSlashChars : List Char → List (List Char)
  | [] => [[]]
  | c :: rest =>
    let r := splitSlashChars rest
    if c = '/' then [] :: r
    else match r with
      | [] => [[c]]
      | h :: t => (c :: h) :: t

def parseStored (s : String) : FPath :=
  ((splitSlashChars s.data).map (fun l => String.mk l)).filter (fun t => !(t == ""))

/-! ## Catalog rows, entities, archives -/

/-- A row of the `assets` table (the columns the embedded operations
touch). -/
structure AssetRow where
  entityId : Nat
  name : String
  description : Option String
  folderName : String
  imageFilename : Option String
  author : Option String
  categoryTag : Option String
deriving DecidableEq

abbrev Catalog := List AssetRow

/-- One row of the `entities ⋈ categories` join used by the importer
and by relocation: entity slug, owning category slug, entity id. -/
structure EntityRec where
  slug : String
  categorySlug : String
  id : Nat
deriving DecidableEq

def lookupEntity (es : List EntityRec) (slug : String) : Option (String × Nat) :=
  (es.find? (fun e => e.slug == slug)).map (fun e => (e.categorySlug, e.id))

/-- One normalized zip entry (path plus directory flag). -/
structure ZipEntry where
  path : FPath
  isDir : Bool
deriving DecidableEq

/-! ## Filesystem mutation helpers -/

/-- All nonempty ancestors of a path, shortest first (including the path
itself). -/
def pathAncestors (p : FPath) : List FPath :=
  (List.range p.length).map (fun n => p.take (n + 1))

/-- Model of `fs::create_dir_all`: every missing ancestor directory is
created. -/
def FS.createDirAll (fs : FS) (p : FPath) : FS :=
  ⟨fs.dirs ++ (pathAncestors p).filter (fun q => !(fs.isDir q)), fs.files⟩

/-- Model of creating or truncating a regular file. -/
def FS.writeFile (fs : FS) (p : FPath) : FS :=
  ⟨fs.dirs, if p ∈ fs.files then fs.files else fs.files ++ [p]⟩

/-- Model of `fs::remove_dir_all`: the directory and its whole subtree
disappear. -/
def FS.removeDirAll (fs : FS) (p : FPath) : FS :=
  ⟨fs.dirs.filter (fun q => !(p.isPrefixOf q)),
   fs.files.filter (fun q => !(p.isPrefixOf q))⟩

/-! ## import_archive -/

def targetImageFilename : String := "preview.png"

/-- Extraction of one archive entry (lines 1921-1964): entries that are
descendants of the selected internal root are re-rooted at `dest`; the
root segment itself is never materialized. -/
def extractStep (dest root : FPath) (fs : FS) (e : ZipEntry) : FS :=
  let mrel : Option FPath :=
    if root = [] then some e.path
    else if root.isPrefixOf e.path then some (e.path.drop root.length)
    else none
  match mrel with
  | none => fs
  | some rel =>
    if rel = [] then fs
    else if e.isDir then fs.createDirAll (dest ++ rel)
    else (fs.createDirAll ((dest ++ rel).dropLast)).writeFile (dest ++ rel)

def extractAll (fs : FS) (dest root : FPath) (archive : List ZipEntry) : FS :=
  archive.foldl (extractStep dest root) fs

/-- Preview handling of the importer (lines 1971-1987).  `userPreview`
is `some b` when the caller supplied an absolute preview path, with `b`
telling whether that source file exists; `none` when no preview was
supplied. -/
def applyPreview (fs : FS) (dest : FPath) (userPreview : Option Bool) :
    FS × Option String :=
  match userPreview with
  | some true => (fs.writeFile (dest ++ [targetImageFilename]), some targetImageFilename)
  | some false => (fs, none)
  | none =>
    if fs.isFile (dest ++ [targetImageFilename]) then (fs, some targetImageFilename)
    else (fs, none)

/-- Model of the command `import_archive` (lines 1846-2023).  The
archive is given already parsed (entry paths normalized); `entities` is
the `entities ⋈ categories` table.  The returned `FS`/`Catalog` are the
states after the call, including the states left behind by a failure. -/
def import_archive (fs : FS) (cat : Catalog) (entities : List EntityRec)
    (base : FPath) (archive : List ZipEntry) (targetEntitySlug : String)
    (selectedInternalRoot : FPath) (modName : String)
    (description : Option String) (author : Option String)
    (categoryTag : Option String) (userPreview : Option Bool) :
    Except String Unit × FS × Catalog :=
  if trimStr modName = "" then
    (Except.error "Mod Name cannot be empty.", fs, cat)
  else if trimStr targetEntitySlug = "" then
    (Except.error "Target Entity must be selected.", fs, cat)
  else
    match lookupEntity entities targetEntitySlug with
    | none => (Except.error "Target entity not found.", fs, cat)
    | some (catSlug, eid) =>
      let folderName := sanitizeFolderName modName
      if folderName = "" then
        (Except.error "Mod Name results in invalid folder name after cleaning.", fs, cat)
      else
        let dest := base ++ [catSlug, targetEntitySlug, folderName]
        let fs₁ := fs.createDirAll dest
        let fs₂ := extractAll fs₁ dest selectedInternalRoot archive
        let fs₃image := applyPreview fs₂ dest userPreview
        let relDb := importStoredPath catSlug targetEntitySlug modName
        if cat.any (fun r => r.entityId == eid && r.folderName == relDb) then
          (Except.error ("Database entry already exists for " ++ relDb ++ ". Aborting."),
            fs₃image.1.removeDirAll dest, cat)
        else
          (Except.ok (), fs₃image.1,
            cat ++ [⟨eid, modName, description, relDb, fs₃image.2, author, categoryTag⟩])

/-! ## Claim C2: duplicate import -/

def impEnts : List EntityRec := [⟨"raiden", "characters", 7⟩]

def impArch : List ZipEntry := [⟨["m.ini"], false⟩]

def impRun1 : Except String Unit × FS × Catalog :=
  import_archive ⟨[["root"]], []⟩ [] impEnts ["root"] impArch "raiden" []
    "MyMod" none none none none

def impRun2 : Except String Unit × FS × Catalog :=
  import_archive impRun1.2.1 impRun1.2.2 impEnts ["root"] impArch "raiden" []
    "MyMod" none none none none

/-- Claim C2 (code bug): a second import of the same destination is
rejected with a Conflict error and inserts no second catalog row, but
its compensation `remove_dir_all` deletes the destination directory —
which is the physical directory of the FIRST import, since `create_dir_all`
succeeded over the existing folder.  Afterwards the catalog still holds
the row of the first import while its directory is gone, contradicting the
claim that the physical directory of the first import stays intact. -/
theorem import_archive_conflict_deletes_first_import :
    impRun1.1 = Except.ok () ∧
    impRun1.2.1.isDir ["root", "characters", "raiden", "MyMod"] = true ∧
    impRun1.2.2.any (fun r => r.entityId == 7 &&
      r.folderName == "characters/raiden/MyMod") = true ∧
    impRun2.1 = Except.error
      "Database entry already exists for characters/raiden/MyMod. Aborting." ∧
    impRun2.2.1.isDir ["root", "characters", "raiden", "MyMod"] = false ∧
    impRun2.2.2 = impRun1.2.2 := by
  refine ⟨by rfl, by decide, by decide, by rfl, by decide, by decide⟩

/-! ## Claim C3: stored leaves and the DISABLED_ marker -/

def impRunDX : Except String Unit × FS × Catalog :=
  import_archive ⟨[["root"]], []⟩ [] impEnts ["root"] impArch "raiden" []
    "DISABLED_X" none none none none

/-- Counterexample to claim C3 as stated: importing under the legal mod
name `DISABLED_X` succeeds and writes a catalog row whose stored leaf
segment carries the `DISABLED_` marker. -/
theorem import_stored_leaf_cex :
    impRunDX.1 = Except.ok () ∧
    impRunDX.2.2 =
      [⟨7, "DISABLED_X", none, "characters/raiden/DISABLED_X", none, none, none⟩] ∧
    hasDisabledMark (leafName (parseStored "characters/raiden/DISABLED_X")) = true := by
  refine ⟨by rfl, by decide, by decide⟩

/-- Claim C3 (amended): the scanner inserts and the relocation updates
always store a forward-slash joined path whose leaf carries no
`DISABLED_` marker, even when the on-disk folder is currently in its
disabled form; the importer stores `category/entity/` plus the
sanitized user-supplied name verbatim, whose leaf begins with
`DISABLED_` exactly when the sanitized name does. -/
theorem stored_path_leaf_spec :
    (∀ rel : FPath, hasDisabledMark (leafName (scanStoredSegs rel)) = false) ∧
    (∀ c e leaf : String,
      hasDisabledMark (leafName (relocStoredSegs c e leaf)) = false) ∧
    (∀ c e name : String,
      leafName (importStoredSegs c e name) = sanitizeFolderName name) := by
  refine ⟨?_, ?_, ?_⟩
  · intro rel
    unfold scanStoredSegs leafName
    rw [List.getLast?_concat]
    exact hasDisabledMark_stripDisabledMarks _
  · intro c e leaf
    exact hasDisabledMark_stripDisabledMarks leaf
  · intro c e name
    rfl

/-! ## update_asset_info: relocation (claim C9) -/

structure RelocResult where
  fs : FS
  newRelSegs : FPath
  destPath : FPath
deriving DecidableEq

/-- Resolve the current physical location of an asset: the enabled location
is tested first, then the disabled one. -/
def resolveCurrent (fs : FS) (base storedSegs : FPath) : Option FPath :=
  if fs.isDir (enabledLoc base storedSegs) then some (enabledLoc base storedSegs)
  else if fs.isDir (disabledLoc base storedSegs) then some (disabledLoc base storedSegs)
  else none

/-- Model of the relocation block of `update_asset_info`
(lines 1260-1369): resolve the current location of the source, build the new
canonical path, keep the current enabled/disabled naming of the source for
the destination folder, refuse an existing destination, create the
parents of the destination and perform the move. -/
def update_asset_info_relocate (fs : FS) (base storedSegs : FPath)
    (newCatSlug newEntSlug : String) : Except String RelocResult :=
  match storedSegs.getLast? with
  | none => Except.error "Could not extract filename from current DB path"
  | some leaf =>
    if leaf = "" then Except.error "Current filename is empty"
    else
      match resolveCurrent fs base storedSegs with
      | none => Except.error "Source folder not found"
      | some current =>
        let newFilename :=
          if hasDisabledMark (leafName current) then addDisabledMark leaf
          else stripDisabledMarks leaf
        let newDest := base ++ [newCatSlug, newEntSlug, newFilename]
        let fs₁ := fs.createDirAll newDest.dropLast
        if fs₁.isDir newDest || fs₁.isFile newDest then
          Except.error "Cannot relocate: target path already exists."
        else
          Except.ok ⟨fs₁.renameDir current newDest,
            relocStoredSegs newCatSlug newEntSlug leaf, newDest⟩

theorem leafName_append_three (base : FPath) (c e x : String) :
    leafName (base ++ [c, e, x]) = x := by
  have h : base ++ [c, e, x] = (base ++ [c, e]) ++ [x] := by simp
  rw [leafName, h, List.getLast?_concat]
  rfl

/-- Claim C9: when `update_asset_info` relocates an asset, the folder
created at the new destination keeps the current physical
naming form: a source folder currently carrying the `DISABLED_` marker
yields a `DISABLED_`-marked destination folder, and a clean-named
(enabled) source folder yields a destination folder with exactly the
same clean name; the move is the rename of the resolved source onto the
destination after creating its parents. -/
theorem relocate_preserves_form_spec (fs : FS) (base storedSegs : FPath)
    (newCatSlug newEntSlug : String) (leaf : String) (r : RelocResult)
    (hleaf : storedSegs.getLast? = some leaf) (hne : leaf ≠ "")
    (hok : update_asset_info_relocate fs base storedSegs newCatSlug newEntSlug =
      Except.ok r) :
    ∃ current, resolveCurrent fs base storedSegs = some current ∧
      r.destPath = base ++ [newCatSlug, newEntSlug, leafName r.destPath] ∧
      (hasDisabledMark (leafName current) = true →
        hasDisabledMark (leafName r.destPath) = true) ∧
      (hasDisabledMark (leafName current) = false →
        leafName r.destPath = leafName current ∧
        hasDisabledMark (leafName r.destPath) = false) ∧
      r.fs = (fs.createDirAll r.destPath.dropLast).renameDir current r.destPath := by
  simp only [update_asset_info_relocate, hleaf] at hok
  rw [if_neg hne] at hok
  split at hok
  · cases hok
  · rename_i current hres
    split at hok
    · rename_i hmark
      split at hok
      · cases hok
      · have hr := Except.ok.inj hok
        subst hr
        refine ⟨current, hres, ?_, ?_, ?_, ?_⟩
        · rw [leafName_append_three]
        · intro _
          rw [leafName_append_three]
          exact hasDisabledMark_addDisabledMark leaf
        · intro hf
          rw [hf] at hmark
          cases hmark
        · rfl
    · rename_i hmark
      split at hok
      · cases hok
      · have hr := Except.ok.inj hok
        subst hr
        have hf : hasDisabledMark (leafName current) = false :=
          Bool.eq_false_iff.mpr hmark
        have hcur : leafName current = leaf := by
          unfold resolveCurrent at hres
          by_cases hen : fs.isDir (enabledLoc base storedSegs) = true
          · rw [if_pos hen] at hres
            have hc := Option.some.inj hres
            rw [← hc, enabledLoc_eq base storedSegs leaf hleaf, leafName,
              List.getLast?_concat]
            rfl
          · rw [if_neg hen] at hres
            by_cases hdis : fs.isDir (disabledLoc base storedSegs) = true
            · rw [if_pos hdis] at hres
              have hc := Option.some.inj hres
              rw [← hc, disabledLoc_eq base storedSegs leaf hleaf, leafName,
                List.getLast?_concat] at hf
              rw [show ((some (addDisabledMark leaf)).getD "") = addDisabledMark leaf
                from rfl] at hf
              rw [hasDisabledMark_addDisabledMark leaf] at hf
              cases hf
            · rw [if_neg hdis] at hres
              cases hres
        have hleafmark : hasDisabledMark leaf = false := by
          rw [← hcur]
          exact hf
        have hstrip : stripDisabledMarks leaf = leaf :=
          stripDisabledMarks_of_not leaf hleafmark
        refine ⟨current, hres, ?_, ?_, ?_, ?_⟩
        · rw [leafName_append_three]
        · intro ht
          rw [ht] at hf
          cases hf
        · intro _
          rw [leafName_append_three, hstrip, hcur]
          exact ⟨rfl, hleafmark⟩
        · rfl

/-- Witness for claim C9: relocating the enabled, clean-named mod
`c/e/M` to entity `e2` of category `c2` produces the clean folder
`r/c2/e2/M`. -/
theorem relocate_preserves_form_spec_witness :
    ∃ current,
      resolveCurrent ⟨[["r"], ["r", "c"], ["r", "c", "e"], ["r", "c", "e", "M"]], []⟩
        ["r"] ["c", "e", "M"] = some current ∧
      (⟨⟨[["r"], ["r", "c"], ["r", "c", "e"], ["r", "c2", "e2", "M"],
          ["r", "c2"], ["r", "c2", "e2"]], []⟩,
        ["c2", "e2", "M"], ["r", "c2", "e2", "M"]⟩ : RelocResult).destPath =
        ["r"] ++ ["c2", "e2",
          leafName (RelocResult.destPath ⟨⟨[["r"], ["r", "c"], ["r", "c", "e"],
            ["r", "c2", "e2", "M"], ["r", "c2"], ["r", "c2", "e2"]], []⟩,
            ["c2", "e2", "M"], ["r", "c2", "e2", "M"]⟩)] ∧
      (hasDisabledMark (leafName current) = true →
        hasDisabledMark (leafName (["r", "c2", "e2", "M"] : FPath)) = true) ∧
      (hasDisabledMark (leafName current) = false →
        leafName (["r", "c2", "e2", "M"] : FPath) = leafName current ∧
        hasDisabledMark (leafName (["r", "c2", "e2", "M"] : FPath)) = false) ∧
      (⟨[["r"], ["r", "c"], ["r", "c", "e"], ["r", "c2", "e2", "M"],
          ["r", "c2"], ["r", "c2", "e2"]], []⟩ : FS) =
        ((⟨[["r"], ["r", "c"], ["r", "c", "e"], ["r", "c", "e", "M"]], []⟩ :
            FS).createDirAll (["r", "c2", "e2", "M"] : FPath).dropLast).renameDir
          current ["r", "c2", "e2", "M"] := by
  exact relocate_preserves_form_spec
    ⟨[["r"], ["r", "c"], ["r", "c", "e"], ["r", "c", "e", "M"]], []⟩
    ["r"] ["c", "e", "M"] "c2" "e2" "M"
    ⟨⟨[["r"], ["r", "c"], ["r", "c", "e"], ["r", "c2", "e2", "M"],
        ["r", "c2"], ["r", "c2", "e2"]], []⟩,
      ["c2", "e2", "M"], ["r", "c2", "e2", "M"]⟩
    (by decide) (by decide) (by rfl)

/-! ## get_assets_for_entity (claim C10) -/

structure AssetView where
  source : AssetRow
  isEnabled : Bool
  folderNameOnDisk : String
deriving DecidableEq

/-- Per-row body of `get_assets_for_entity` (lines 788-848): parse the
stored clean path, test the enabled then the disabled location, and
either annotate the row with the derived state and the actual on-disk
folder name or silently skip it. -/
def viewOfRow (fs : FS) (base : FPath) (row : AssetRow) : Option AssetView :=
  match (parseStored row.folderName).getLast? with
  | none => none
  | some leaf =>
    if leaf = "" then none
    else if fs.isDir (enabledLoc base (parseStored row.folderName)) then
      some ⟨row, true, String.intercalate "/" (parseStored row.folderName)⟩
    else if fs.isDir (disabledLoc base (parseStored row.folderName)) then
      some ⟨row, false, String.intercalate "/"
        ((parseStored row.folderName).dropLast ++ [addDisabledMark leaf])⟩
    else none

/-- Model of the command `get_assets_for_entity` (lines 737-861),
restricted to the rows of the requested entity: a plain filter-map, so
a missing folder never fails the whole operation. -/
def get_assets_for_entity (fs : FS) (base : FPath) (rows : List AssetRow) :
    List AssetView :=
  rows.filterMap (viewOfRow fs base)

/-- Claim C10: `get_assets_for_entity` returns only those cataloged
assets of the entity whose folder currently exists on disk in the
enabled or the disabled form, each annotated with the derived
`is_enabled` flag and the actual on-disk folder name; an asset whose
folder exists in neither form is silently skipped and its absence never
fails the operation (the listing is a total filter-map over the rows). -/
theorem get_assets_for_entity_spec (fs : FS) (base : FPath) (rows : List AssetRow)
    (row : AssetRow) (leaf : String)
    (hleaf : (parseStored row.folderName).getLast? = some leaf) (hne : leaf ≠ "") :
    (fs.isDir (enabledLoc base (parseStored row.folderName)) = true →
      viewOfRow fs base row =
        some ⟨row, true, String.intercalate "/" (parseStored row.folderName)⟩) ∧
    (fs.isDir (enabledLoc base (parseStored row.folderName)) = false →
      fs.isDir (disabledLoc base (parseStored row.folderName)) = true →
      viewOfRow fs base row =
        some ⟨row, false, String.intercalate "/"
          ((parseStored row.folderName).dropLast ++ [addDisabledMark leaf])⟩) ∧
    (fs.isDir (enabledLoc base (parseStored row.folderName)) = false →
      fs.isDir (disabledLoc base (parseStored row.folderName)) = false →
      viewOfRow fs base row = none) ∧
    (∀ v, v ∈ get_assets_for_entity fs base rows ↔
      ∃ r ∈ rows, viewOfRow fs base r = some v) := by
  refine ⟨?_, ?_, ?_, ?_⟩
  · intro h1
    simp only [viewOfRow, hleaf]
    rw [if_neg hne, if_pos h1]
  · intro h1 h2
    simp only [viewOfRow, hleaf]
    rw [if_neg hne, if_neg (by simp [h1]), if_pos h2]
  · intro h1 h2
    simp only [viewOfRow, hleaf]
    rw [if_neg hne, if_neg (by simp [h1]), if_neg (by simp [h2])]
  · intro v
    simp [get_assets_for_entity, List.mem_filterMap]

def rowA : AssetRow := ⟨7, "A", none, "c/M", none, none, none⟩

def rowB : AssetRow := ⟨7, "B", none, "c/N", none, none, none⟩

def fsV : FS := ⟨[["r"], ["r", "c"], ["r", "c", "M"]], []⟩

/-- Witness for claim C10: of two cataloged rows, the one whose folder
exists (enabled) is returned annotated, the one whose folder is missing
in both forms is silently omitted. -/
theorem get_assets_for_entity_spec_witness :
    viewOfRow fsV ["r"] rowA = some ⟨rowA, true, "c/M"⟩ ∧
    viewOfRow fsV ["r"] rowB = none ∧
    get_assets_for_entity fsV ["r"] [rowA, rowB] = [⟨rowA, true, "c/M"⟩] := by
  have hA := get_assets_for_entity_spec fsV ["r"] [rowA, rowB] rowA "M"
    (by decide) (by decide)
  have hB := get_assets_for_entity_spec fsV ["r"] [rowA, rowB] rowB "N"
    (by decide) (by decide)
  refine ⟨?_, ?_, by decide⟩
  · exact (hA.1 (by decide)).trans (by decide)
  · exact hB.2.2.1 (by decide) (by decide)

/-! ## scan_mods_directory (claim C5) -/

/-- A directory subtree of the managed root: `hasIniFile` tells whether
a `.ini` file sits directly inside (the mod-root test of the scanner),
`parsedIni` is the parsed first descriptor handed to deduction (`none`
when absent or unparseable), `preview` the `find_preview_image`
result. -/
inductive DirTree : Type where
  | node (name : String) (hasIniFile : Bool) (parsedIni : Option IniFile)
      (preview : Option String) (children : List DirTree)

/-- One mod root identified by the walk: its relative path under the
managed root plus the data deduction reads from it. -/
structure RootItem where
  rel : FPath
  parsedIni : Option IniFile
  preview : Option String

mutual
/-- The execution walk of the scanner (lines 1088-1203): a directory
directly containing a descriptor and not already processed is recorded
as a mod root and its subtree skipped; any other directory is
descended into. -/
def walkTree (pfx : FPath) (t : DirTree) (st : List FPath × List RootItem) :
    List FPath × List RootItem :=
  match t with
  | .node nm hasIni pini prev children =>
    if hasIni && !(decide ((pfx ++ [nm]) ∈ st.1)) then
      ((pfx ++ [nm]) :: st.1, st.2 ++ [⟨pfx ++ [nm], pini, prev⟩])
    else walkTreeList (pfx ++ [nm]) children st

def walkTreeList (pfx : FPath) (ts : List DirTree)
    (st : List FPath × List RootItem) : List FPath × List RootItem :=
  match ts with
  | [] => st
  | t :: rest => walkTreeList pfx rest (walkTree pfx t st)
end

/-- The sequence of mod roots the walk processes, in order.  It depends
only on the tree, never on the catalog, so an unchanged tree yields the
same sequence on every run. -/
def scanSeq (trees : List DirTree) : List RootItem :=
  (walkTreeList [] trees ([], [])).2

structure ScanState where
  catalog : Catalog
  processedCount : Nat
  added : Nat
  errors : Nat

/-- Does the catalog already hold a row for this
`(entity_id, folder_name)` key (lines 1144-1149)? -/
def hasKey (cat : Catalog) (eid : Nat) (p : String) : Bool :=
  cat.any (fun r => r.entityId == eid && r.folderName == p)

/-- Processing of one identified mod root (lines 1100-1184): deduce,
resolve the entity id, compute the clean stored path, and insert a new
row only when no row with the same `(entity_id, folder_name)` key
exists; an existing row is left entirely untouched. -/
def processModRoot (maps : DeductionMaps) (base : FPath) (st : ScanState)
    (item : RootItem) : ScanState :=
  match deduce_mod_info_v2 maps base (base ++ item.rel) item.parsedIni item.preview with
  | some ded =>
    match alookupN maps.entitySlugToId ded.entitySlug with
    | some eid =>
      if hasKey st.catalog eid (scanStoredPath item.rel) then
        ⟨st.catalog, st.processedCount + 1, st.added, st.errors⟩
      else
        ⟨st.catalog ++ [⟨eid, ded.modName, ded.description, scanStoredPath item.rel,
            ded.imageFilename, ded.author, ded.modTypeTag⟩],
          st.processedCount + 1, st.added + 1, st.errors⟩
    | none => ⟨st.catalog, st.processedCount + 1, st.added, st.errors + 1⟩
  | none => ⟨st.catalog, st.processedCount + 1, st.added, st.errors + 1⟩

/-- Model of the execution pass of `scan_mods_directory`
(lines 1025-1234) over a fixed managed tree. -/
def scan_mods_directory (maps : DeductionMaps) (base : FPath)
    (trees : List DirTree) (cat : Catalog) : ScanState :=
  (scanSeq trees).foldl (processModRoot maps base) ⟨cat, 0, 0, 0⟩

/-- The `(entity_id, clean stored path)` key a mod root reconciles
under, when deduction and the entity id lookup both succeed. -/
def itemKey (maps : DeductionMaps) (base : FPath) (item : RootItem) :
    Option (Nat × String) :=
  match deduce_mod_info_v2 maps base (base ++ item.rel) item.parsedIni item.preview with
  | some ded =>
    match alookupN maps.entitySlugToId ded.entitySlug with
    | some eid => some (eid, scanStoredPath item.rel)
    | none => none
  | none => none

theorem hasKey_append (cat : Catalog) (row : AssetRow) (eid : Nat) (p : String)
    (h : hasKey cat eid p = true) : hasKey (cat ++ [row]) eid p = true := by
  unfold hasKey at h ⊢
  rw [List.any_append, h]
  rfl

theorem hasKey_mono (maps : DeductionMaps) (base : FPath) (items : List RootItem)
    (st : ScanState) (eid : Nat) (p : String)
    (h : hasKey st.catalog eid p = true) :
    hasKey (items.foldl (processModRoot maps base) st).catalog eid p = true := by
  induction items generalizing st with
  | nil => exact h
  | cons it rest ih =>
    rw [List.foldl_cons]
    refine ih (processModRoot maps base st it) ?_
    unfold processModRoot
    split
    · split
      · split
        · exact h
        · exact hasKey_append _ _ _ _ h
      · exact h
    · exact h

theorem scan_establishes_keys (maps : DeductionMaps) (base : FPath)
    (items : List RootItem) (st : ScanState) (item : RootItem)
    (hmem : item ∈ items) (k : Nat × String)
    (hk : itemKey maps base item = some k) :
    hasKey (items.foldl (processModRoot maps base) st).catalog k.1 k.2 = true := by
  induction items generalizing st with
  | nil => cases hmem
  | cons it rest ih =>
    rw [List.foldl_cons]
    rcases List.mem_cons.mp hmem with heq | hrest
    · subst heq
      refine hasKey_mono maps base rest _ k.1 k.2 ?_
      unfold itemKey at hk
      split at hk
      · rename_i ded hded
        split at hk
        · rename_i eid hlook
          have hkk := Option.some.inj hk
          subst hkk
          unfold processModRoot
          simp only [hded, hlook]
          split
          · rename_i hexist
            exact hexist
          · unfold hasKey
            rw [List.any_append]
            simp
        · cases hk
      · cases hk
    · exact ih (processModRoot maps base st it) hrest

theorem scan_skips_existing (maps : DeductionMaps) (base : FPath)
    (items : List RootItem) (st : ScanState)
    (h : ∀ item ∈ items, ∀ k, itemKey maps base item = some k →
      hasKey st.catalog k.1 k.2 = true) :
    (items.foldl (processModRoot maps base) st).catalog = st.catalog ∧
    (items.foldl (processModRoot maps base) st).added = st.added := by
  induction items generalizing st with
  | nil => exact ⟨rfl, rfl⟩
  | cons it rest ih =>
    rw [List.foldl_cons]
    have hstep : (processModRoot maps base st it).catalog = st.catalog ∧
        (processModRoot maps base st it).added = st.added := by
      unfold processModRoot
      split
      · rename_i ded hded
        split
        · rename_i eid hlook
          have hexist : hasKey st.catalog eid (scanStoredPath it.rel) = true := by
            refine h it (List.mem_cons_self it rest) (eid, scanStoredPath it.rel) ?_
            simp only [itemKey, hded, hlook]
          split
          · exact ⟨rfl, rfl⟩
          · rename_i hexistf
            exact absurd hexist hexistf
        · exact ⟨rfl, rfl⟩
      · exact ⟨rfl, rfl⟩
    have hrest := ih (processModRoot maps base st it)
      (by
        intro item hmem k hk
        rw [hstep.1]
        exact h item (List.mem_cons_of_mem it hmem) k hk)
    refine ⟨hrest.1.trans hstep.1, hrest.2.trans hstep.2⟩

/-- Claim C5: running the scan twice over the same unchanged managed
tree yields `added = 0` on the second run and creates no duplicate
rows: after the first run, for every processed mod root the
`(entity_id, clean path)` key is present in the catalog, and the second
run finds each existing row and leaves the catalog entirely unchanged,
refreshing nothing. -/
theorem scan_twice_spec (maps : DeductionMaps) (base : FPath)
    (trees : List DirTree) (cat : Catalog) :
    (∀ item ∈ scanSeq trees, ∀ k, itemKey maps base item = some k →
      hasKey (scan_mods_directory maps base trees cat).catalog k.1 k.2 = true) ∧
    (scan_mods_directory maps base trees
        (scan_mods_directory maps base trees cat).catalog).catalog =
      (scan_mods_directory maps base trees cat).catalog ∧
    (scan_mods_directory maps base trees
        (scan_mods_directory maps base trees cat).catalog).added = 0 := by
  have hkeys : ∀ item ∈ scanSeq trees, ∀ k, itemKey maps base item = some k →
      hasKey (scan_mods_directory maps base trees cat).catalog k.1 k.2 = true := by
    intro item hmem k hk
    exact scan_establishes_keys maps base (scanSeq trees) ⟨cat, 0, 0, 0⟩ item hmem k hk
  have hskip := scan_skips_existing maps base (scanSeq trees)
    ⟨(scan_mods_directory maps base trees cat).catalog, 0, 0, 0⟩
    (by
      intro item hmem k hk
      exact hkeys item hmem k hk)
  exact ⟨hkeys, hskip.1, hskip.2⟩

/-- Witness for claim C5: a one-mod tree whose first scan adds one row
and whose second scan over the unchanged tree adds nothing. -/
theorem scan_twice_spec_witness :
    (scan_mods_directory ⟨[], [("characters-other", 3)], [], []⟩ []
        [DirTree.node "MyMod" true none none []] []).added = 1 ∧
    (scan_mods_directory ⟨[], [("characters-other", 3)], [], []⟩ []
        [DirTree.node "MyMod" true none none []]
        (scan_mods_directory ⟨[], [("characters-other", 3)], [], []⟩ []
          [DirTree.node "MyMod" true none none []] []).catalog).added = 0 :=
  ⟨by decide,
   (scan_twice_spec ⟨[], [("characters-other", 3)], [], []⟩ []
      [DirTree.node "MyMod" true none none []] []).2.2⟩

end GMM
